import Mathlib

/-!
Verification of the lexical scanner in `src/lexical_parser.py`.

The scanner is a single-pass, first-match tokenizer: a fixed ordered table
`TOKEN_SPEC` of (token kind, pattern) rules is alternated into one master
pattern and `tokenize` walks the input left to right, at each position taking
the first rule (in table order) whose pattern matches there.  We model the
input as `List Char`, each rule's pattern as an explicit matching function
returning the matched lexeme and the remaining input, and the scan loop as a
fuel-indexed recursion (fuel `= length of the input` always suffices because
every match consumes at least one character).

Word-boundary (`\b`) semantics of the KEYWORD/BUILTIN patterns are modelled by
threading a flag saying whether the character just before the current scan
position is a word character (`False` at the start of the input).  Per the
scope of the scanner (ASCII word characters only), `\w` is modelled as ASCII
letter / digit / underscore and `\d` as ASCII digit.
-/

namespace LexicalParser

/-- The token kinds of `TOKEN_SPEC`, in source order. -/
inductive Tok where
  | STRING
  | BADSEQ
  | KEYWORD
  | BUILTIN
  | NUMBER
  | IDENT
  | AUGASSIGN
  | EQEQ
  | NEQ
  | LE
  | GE
  | ASSIGN
  | LT
  | GT
  | PLUS
  | MINUS
  | STAR
  | SLASH
  | LPAREN
  | RPAREN
  | COMMA
  | COLON
  | NEWLINE
  | SKIP
  | MISMATCH
  deriving DecidableEq, Repr

/-- `\w` on the ASCII fragment the scanner is specified over:
letter, digit or underscore. -/
def isWordChar (c : Char) : Bool :=
  c.isAlpha || c.isDigit || c == '_'

/-- `\d` (ASCII digit). -/
def isDigitChar (c : Char) : Bool :=
  c.isDigit

/-- `[ \t]` : horizontal whitespace. -/
def isSpaceTab (c : Char) : Bool :=
  c == ' ' || c == '\t'

/-- The reserved words of the `KEYWORDS` alternation, in source order. -/
def KEYWORDS : List (List Char) :=
  ["def".data, "if".data, "else".data, "elif".data, "return".data,
   "while".data, "for".data, "in".data, "and".data, "or".data,
   "not".data, "True".data, "False".data, "None".data]

/-- The single built-in name of the `BUILTIN` pattern. -/
def BUILTINS : List (List Char) :=
  ["print".data]

/-- Match the literal character sequence `l` at the front of `cs`,
returning (lexeme, rest). -/
def matchLit : List Char → List Char → Option (List Char × List Char)
  | [], cs => some ([], cs)
  | _ :: _, [] => none
  | x :: xs, c :: cs =>
    if c = x then
      match matchLit xs cs with
      | some (l, r) => some (c :: l, r)
      | none => none
    else none

/-- The body-and-closing-quote part `(?:[^Q\\\n]|\\.)*Q` of the STRING
pattern, for quote character `q`: ordinary characters until the first
unescaped `q`, where a backslash escapes the next character (which may not
be a line feed, since `.` does not match `\n`). -/
def scanStrBody (q : Char) : List Char → Option (List Char × List Char)
  | [] => none
  | c :: cs =>
    if c = q then some ([q], cs)
    else if c = '\n' then none
    else if c = '\\' then
      match cs with
      | [] => none
      | d :: ds =>
        if d = '\n' then none
        else
          match scanStrBody q ds with
          | some (l, r) => some (c :: d :: l, r)
          | none => none
    else
      match scanStrBody q cs with
      | some (l, r) => some (c :: l, r)
      | none => none

/-- One quoted alternative `(?:[fF]?)Q(?:[^Q\\\n]|\\.)*Q` of the STRING
pattern: an optional `f`/`F` prefix, the opening quote, then the body. -/
def matchQuoted (q : Char) : List Char → Option (List Char × List Char)
  | [] => none
  | c :: cs =>
    if c = q then
      match scanStrBody q cs with
      | some (l, r) => some (c :: l, r)
      | none => none
    else if c = 'f' ∨ c = 'F' then
      match cs with
      | [] => none
      | d :: ds =>
        if d = q then
          match scanStrBody q ds with
          | some (l, r) => some (c :: d :: l, r)
          | none => none
        else none
    else none

/-- The STRING pattern: the single-quoted alternative, else the
double-quoted one. -/
def matchSTRING (cs : List Char) : Option (List Char × List Char) :=
  match matchQuoted '\'' cs with
  | some res => some res
  | none => matchQuoted '"' cs

/-- `\b` at the position where `cs` is the remaining input and `prev` says
whether the character just before is a word character (at the end of input
the boundary holds exactly when the previous character is a word
character). -/
def wordB (prev : Bool) : List Char → Bool
  | [] => prev
  | c :: _ => prev != isWordChar c

/-- Try the whole words `ws` in order at the front of `cs`, each with the
trailing word-boundary requirement (a failed trailing boundary backtracks to
the next alternative). -/
def matchWordsAux (cs : List Char) : List (List Char) → Option (List Char × List Char)
  | [] => none
  | w :: ws =>
    match matchLit w cs with
    | some (l, r) => if wordB true r then some (l, r) else matchWordsAux cs ws
    | none => matchWordsAux cs ws

/-- `\b(?:w1|w2|...)\b` : try the whole words `ws` in order at the front of
`cs`, requiring a word boundary on both sides.  (All words start and end in
letters, so a boundary before the match means the previous character is not
a word character.) -/
def matchWords (ws : List (List Char)) (prev : Bool) (cs : List Char) :
    Option (List Char × List Char) :=
  if wordB prev cs then matchWordsAux cs ws else none

/-- The NUMBER pattern `\d+(?:\.\d+)?` : a nonempty run of digits, then
optionally a decimal point followed by a nonempty run of digits (a point
with no digit after it is left unconsumed). -/
def matchNUMBER (cs : List Char) : Option (List Char × List Char) :=
  let ds := cs.takeWhile isDigitChar
  let r1 := cs.dropWhile isDigitChar
  if ds.isEmpty then none
  else
    match r1 with
    | c :: r2 =>
      if c = '.' then
        let fs := r2.takeWhile isDigitChar
        if fs.isEmpty then some (ds, r1)
        else some (ds ++ '.' :: fs, r2.dropWhile isDigitChar)
      else some (ds, r1)
    | [] => some (ds, r1)

/-- The IDENT pattern `[A-Za-z_]\w*`. -/
def matchIDENT : List Char → Option (List Char × List Char)
  | [] => none
  | c :: cs =>
    if c.isAlpha || c == '_' then
      some (c :: cs.takeWhile isWordChar, cs.dropWhile isWordChar)
    else none

/-- Try the literal alternatives `ws` in order at the front of `cs`. -/
def firstLit (cs : List Char) : List (List Char) → Option (List Char × List Char)
  | [] => none
  | w :: ws =>
    match matchLit w cs with
    | some res => some res
    | none => firstLit cs ws

/-- The AUGASSIGN pattern `(?:\+=|-=|\*=|/=)`. -/
def matchAUGASSIGN (cs : List Char) : Option (List Char × List Char) :=
  firstLit cs [['+', '='], ['-', '='], ['*', '='], ['/', '=']]

/-- The SKIP pattern `[ \t]+` : a nonempty maximal run of
spaces and tabs. -/
def matchSKIP (cs : List Char) : Option (List Char × List Char) :=
  let l := cs.takeWhile isSpaceTab
  if l.isEmpty then none else some (l, cs.dropWhile isSpaceTab)

/-- The MISMATCH pattern `.` : any single character other than a line
feed. -/
def matchMISMATCH : List Char → Option (List Char × List Char)
  | [] => none
  | c :: cs => if c = '\n' then none else some ([c], cs)

/-- The pattern of each rule of `TOKEN_SPEC`, as a matcher taking the
previous-character-is-a-word-character flag and the remaining input. -/
def ruleMatch : Tok → Bool → List Char → Option (List Char × List Char)
  | Tok.STRING, _, cs => matchSTRING cs
  | Tok.BADSEQ, _, cs => matchLit [')', ')'] cs
  | Tok.KEYWORD, prev, cs => matchWords KEYWORDS prev cs
  | Tok.BUILTIN, prev, cs => matchWords BUILTINS prev cs
  | Tok.NUMBER, _, cs => matchNUMBER cs
  | Tok.IDENT, _, cs => matchIDENT cs
  | Tok.AUGASSIGN, _, cs => matchAUGASSIGN cs
  | Tok.EQEQ, _, cs => matchLit ['=', '='] cs
  | Tok.NEQ, _, cs => matchLit ['!', '='] cs
  | Tok.LE, _, cs => matchLit ['<', '='] cs
  | Tok.GE, _, cs => matchLit ['>', '='] cs
  | Tok.ASSIGN, _, cs => matchLit ['='] cs
  | Tok.LT, _, cs => matchLit ['<'] cs
  | Tok.GT, _, cs => matchLit ['>'] cs
  | Tok.PLUS, _, cs => matchLit ['+'] cs
  | Tok.MINUS, _, cs => matchLit ['-'] cs
  | Tok.STAR, _, cs => matchLit ['*'] cs
  | Tok.SLASH, _, cs => matchLit ['/'] cs
  | Tok.LPAREN, _, cs => matchLit ['('] cs
  | Tok.RPAREN, _, cs => matchLit [')'] cs
  | Tok.COMMA, _, cs => matchLit [','] cs
  | Tok.COLON, _, cs => matchLit [':'] cs
  | Tok.NEWLINE, _, cs => matchLit ['\n'] cs
  | Tok.SKIP, _, cs => matchSKIP cs
  | Tok.MISMATCH, _, cs => matchMISMATCH cs

/-- The rule order of `TOKEN_SPEC` (the alternation order of `MASTER_RE`). -/
def TOKEN_SPEC : List Tok :=
  [Tok.STRING, Tok.BADSEQ, Tok.KEYWORD, Tok.BUILTIN, Tok.NUMBER, Tok.IDENT,
   Tok.AUGASSIGN, Tok.EQEQ, Tok.NEQ, Tok.LE, Tok.GE, Tok.ASSIGN, Tok.LT,
   Tok.GT, Tok.PLUS, Tok.MINUS, Tok.STAR, Tok.SLASH, Tok.LPAREN, Tok.RPAREN,
   Tok.COMMA, Tok.COLON, Tok.NEWLINE, Tok.SKIP, Tok.MISMATCH]

/-- Try the rules `ks` in order at the current position; the first rule whose
pattern matches wins (Python alternation takes the first matching
alternative, not the longest). -/
def firstMatchAux (prev : Bool) (cs : List Char) :
    List Tok → Option (Tok × List Char × List Char)
  | [] => none
  | k :: ks =>
    match ruleMatch k prev cs with
    | some (l, r) => some (k, l, r)
    | none => firstMatchAux prev cs ks

/-- The match of `MASTER_RE` at the current position: the first rule of
`TOKEN_SPEC` that matches there. -/
def firstMatch (prev : Bool) (cs : List Char) :
    Option (Tok × List Char × List Char) :=
  firstMatchAux prev cs TOKEN_SPEC

/-- The previous-character flag after consuming the lexeme `lex`. -/
def prevAfter (prev : Bool) (lex : List Char) : Bool :=
  match lex.getLast? with
  | some c => isWordChar c
  | none => prev

/-- The successive matches of `MASTER_RE.finditer`, fuel-indexed: at each
position take the first matching rule, record (kind, lexeme), and continue
after the match; if no rule matched (which never happens, see
`firstMatch_isSome`), move one character forward as `finditer` does. -/
def lexChunksF : Nat → Bool → List Char → List (Tok × List Char)
  | 0, _, _ => []
  | _ + 1, _, [] => []
  | fuel + 1, prev, c :: cs =>
    match firstMatch prev (c :: cs) with
    | some (k, lex, rest) => (k, lex) :: lexChunksF fuel (prevAfter prev lex) rest
    | none => lexChunksF fuel (isWordChar c) cs

/-- The match sequence of the scan of `cs` (fuel `cs.length` suffices:
every match is nonempty). -/
def lexChunks (prev : Bool) (cs : List Char) : List (Tok × List Char) :=
  lexChunksF cs.length prev cs

/-- The error message built for a BADSEQ or MISMATCH lexeme. -/
def errMsg (lex : List Char) : List Char :=
  "Error, ".data ++ lex ++ " is not recognized as a token".data

/-- The token list built by the loop body of `tokenize`: SKIP is discarded,
NEWLINE is kept with its lexeme normalized to the two characters `\` `n`,
BADSEQ and MISMATCH go to the error list, everything else is kept as is. -/
def tokensOf : List (Tok × List Char) → List (Tok × List Char)
  | [] => []
  | (k, lex) :: rest =>
    match k with
    | Tok.SKIP => tokensOf rest
    | Tok.NEWLINE => (Tok.NEWLINE, ['\\', 'n']) :: tokensOf rest
    | Tok.BADSEQ => tokensOf rest
    | Tok.MISMATCH => tokensOf rest
    | _ => (k, lex) :: tokensOf rest

/-- Whether a match of this kind is routed to the error list. -/
def isErrKind : Tok → Bool
  | Tok.BADSEQ => true
  | Tok.MISMATCH => true
  | _ => false

/-- The error list built by the loop body of `tokenize`. -/
def errorsOf : List (Tok × List Char) → List (List Char)
  | [] => []
  | (k, lex) :: rest =>
    if isErrKind k then errMsg lex :: errorsOf rest else errorsOf rest

/-- `tokenize(text)`: the (tokens, errors) pair of the scan of `text`. -/
def tokenize (text : List Char) : List (Tok × List Char) × List (List Char) :=
  (tokensOf (lexChunks false text), errorsOf (lexChunks false text))

/-! ## Basic facts about the individual matchers -/

theorem matchLit_self (l rest : List Char) : matchLit l (l ++ rest) = some (l, rest) := by
  induction l with
  | nil => rfl
  | cons x xs ih => simp [matchLit, ih]

theorem matchLit_eq_some {l cs lex rest : List Char}
    (h : matchLit l cs = some (lex, rest)) : lex = l ∧ cs = l ++ rest := by
  induction l generalizing cs lex rest with
  | nil =>
    simp only [matchLit, Option.some.injEq, Prod.mk.injEq] at h
    exact ⟨h.1.symm, by simp [h.2]⟩
  | cons x xs ih =>
    cases cs with
    | nil => simp [matchLit] at h
    | cons c cs' =>
      simp only [matchLit] at h
      split at h
      · cases hm : matchLit xs cs' with
        | none => rw [hm] at h; simp at h
        | some pr =>
          rw [hm] at h
          obtain ⟨l1, r1⟩ := pr
          simp only [Option.some.injEq, Prod.mk.injEq] at h
          obtain ⟨hl, hr⟩ := h
          obtain ⟨h1, h2⟩ := ih hm
          subst h1 h2 hr
          constructor
          · rw [← hl]; simp [*]
          · simp [*]
      · exact absurd h (by simp)

theorem scanStrBody_bound {q : Char} (hq : q ≠ '\n') :
    ∀ n : Nat, ∀ cs : List Char, cs.length ≤ n → ∀ l r : List Char,
      scanStrBody q cs = some (l, r) →
      cs = l ++ r ∧ l ≠ [] ∧ (∃ l₀, l = l₀ ++ [q]) ∧ '\n' ∉ l := by
  intro n
  induction n with
  | zero =>
    intro cs hlen l r h
    rw [List.length_eq_zero.mp (Nat.le_zero.mp hlen)] at h
    simp [scanStrBody] at h
  | succ n ih =>
    intro cs hlen l r h
    cases cs with
    | nil => simp [scanStrBody] at h
    | cons c cs' =>
      rw [scanStrBody.eq_def] at h
      simp only [] at h
      by_cases hcq : c = q
      · rw [if_pos hcq] at h
        simp only [Option.some.injEq, Prod.mk.injEq] at h
        obtain ⟨hl, hr⟩ := h
        subst hcq hr
        refine ⟨by simp [← hl], by simp [← hl], ⟨[], by simp [← hl]⟩, ?_⟩
        simp only [← hl, List.mem_singleton]
        exact fun hh => hq hh.symm
      · rw [if_neg hcq] at h
        by_cases hcn : c = '\n'
        · rw [if_pos hcn] at h; exact absurd h (by simp)
        · rw [if_neg hcn] at h
          by_cases hcb : c = '\\'
          · rw [if_pos hcb] at h
            cases cs' with
            | nil => simp at h
            | cons d ds =>
              simp only [] at h
              by_cases hdn : d = '\n'
              · rw [if_pos hdn] at h; simp at h
              · rw [if_neg hdn] at h
                cases hm : scanStrBody q ds with
                | none => rw [hm] at h; simp at h
                | some pr =>
                  obtain ⟨l1, r1⟩ := pr
                  rw [hm] at h
                  simp only [Option.some.injEq, Prod.mk.injEq] at h
                  obtain ⟨hl, hr⟩ := h
                  have hlen' : ds.length ≤ n := by
                    simp only [List.length_cons] at hlen; omega
                  obtain ⟨hcs, _, ⟨l₀, hql⟩, hnl1⟩ := ih ds hlen' l1 r1 hm
                  subst hr hcs
                  refine ⟨by simp [← hl], by simp [← hl],
                    ⟨c :: d :: l₀, by simp [← hl, hql]⟩, ?_⟩
                  simp only [← hl, List.mem_cons, not_or]
                  exact ⟨fun hh => hcn hh.symm, fun hh => hdn hh.symm, hnl1⟩
          · rw [if_neg hcb] at h
            cases hm : scanStrBody q cs' with
            | none => rw [hm] at h; simp at h
            | some pr =>
              obtain ⟨l1, r1⟩ := pr
              rw [hm] at h
              simp only [Option.some.injEq, Prod.mk.injEq] at h
              obtain ⟨hl, hr⟩ := h
              have hlen' : cs'.length ≤ n := by
                simp only [List.length_cons] at hlen; omega
              obtain ⟨hcs, _, ⟨l₀, hql⟩, hnl1⟩ := ih cs' hlen' l1 r1 hm
              subst hr hcs
              refine ⟨by simp [← hl], by simp [← hl],
                ⟨c :: l₀, by simp [← hl, hql]⟩, ?_⟩
              simp only [← hl, List.mem_cons, not_or]
              exact ⟨fun hh => hcn hh.symm, hnl1⟩

theorem scanStrBody_eq_some {q : Char} (hq : q ≠ '\n') {cs l r : List Char}
    (h : scanStrBody q cs = some (l, r)) :
    cs = l ++ r ∧ l ≠ [] ∧ (∃ l₀, l = l₀ ++ [q]) ∧ '\n' ∉ l :=
  scanStrBody_bound hq cs.length cs le_rfl l r h

theorem matchQuoted_eq_some {q : Char} (hq : q ≠ '\n') {cs lex rest : List Char}
    (h : matchQuoted q cs = some (lex, rest)) :
    cs = lex ++ rest ∧ lex ≠ [] ∧ (∃ l₀, lex = l₀ ++ [q]) ∧ '\n' ∉ lex := by
  cases cs with
  | nil => simp [matchQuoted] at h
  | cons c cs' =>
    rw [matchQuoted.eq_def] at h
    simp only [] at h
    by_cases hcq : c = q
    · rw [if_pos hcq] at h
      cases hm : scanStrBody q cs' with
      | none => rw [hm] at h; simp at h
      | some pr =>
        obtain ⟨l1, r1⟩ := pr
        rw [hm] at h
        simp only [Option.some.injEq, Prod.mk.injEq] at h
        obtain ⟨hl, hr⟩ := h
        obtain ⟨hcs, _, ⟨l₀, hql⟩, hnl1⟩ := scanStrBody_eq_some hq hm
        subst hr hcs hcq
        refine ⟨by simp [← hl], by simp [← hl], ⟨c :: l₀, by simp [← hl, hql]⟩, ?_⟩
        simp only [← hl, List.mem_cons, not_or]
        exact ⟨fun hh => hq hh.symm, hnl1⟩
    · rw [if_neg hcq] at h
      by_cases hcf : c = 'f' ∨ c = 'F'
      · rw [if_pos hcf] at h
        cases cs' with
        | nil => simp at h
        | cons d ds =>
          simp only [] at h
          by_cases hdq : d = q
          · rw [if_pos hdq] at h
            cases hm : scanStrBody q ds with
            | none => rw [hm] at h; simp at h
            | some pr =>
              obtain ⟨l1, r1⟩ := pr
              rw [hm] at h
              simp only [Option.some.injEq, Prod.mk.injEq] at h
              obtain ⟨hl, hr⟩ := h
              obtain ⟨hcs, _, ⟨l₀, hql⟩, hnl1⟩ := scanStrBody_eq_some hq hm
              subst hr hcs hdq
              refine ⟨by simp [← hl], by simp [← hl],
                ⟨c :: d :: l₀, by simp [← hl, hql]⟩, ?_⟩
              simp only [← hl, List.mem_cons, not_or]
              refine ⟨?_, fun hh => hq hh.symm, hnl1⟩
              rcases hcf with hcf | hcf <;> subst hcf <;> decide
          · rw [if_neg hdq] at h; exact absurd h (by simp)
      · rw [if_neg hcf] at h; exact absurd h (by simp)

theorem matchSTRING_eq_some {cs lex rest : List Char}
    (h : matchSTRING cs = some (lex, rest)) :
    cs = lex ++ rest ∧ lex ≠ [] ∧ '\n' ∉ lex ∧
      ∃ q l₀, (q = '\'' ∨ q = '"') ∧ lex = l₀ ++ [q] := by
  unfold matchSTRING at h
  cases hm : matchQuoted '\'' cs with
  | some pr =>
    rw [hm] at h
    obtain rfl : pr = (lex, rest) := by simpa using h
    obtain ⟨h1, h2, ⟨l₀, h3⟩, h4⟩ := matchQuoted_eq_some (by decide) hm
    exact ⟨h1, h2, h4, '\'', l₀, Or.inl rfl, h3⟩
  | none =>
    rw [hm] at h
    obtain ⟨h1, h2, ⟨l₀, h3⟩, h4⟩ := matchQuoted_eq_some (by decide) h
    exact ⟨h1, h2, h4, '"', l₀, Or.inr rfl, h3⟩

theorem matchWordsAux_eq_some {cs : List Char} :
    ∀ {ws : List (List Char)} {lex rest : List Char},
      matchWordsAux cs ws = some (lex, rest) →
      lex ∈ ws ∧ cs = lex ++ rest := by
  intro ws
  induction ws with
  | nil => intro lex rest h; simp [matchWordsAux] at h
  | cons w ws ih =>
    intro lex rest h
    simp only [matchWordsAux] at h
    cases hm : matchLit w cs with
    | none =>
      rw [hm] at h
      obtain ⟨h1, h2⟩ := ih h
      exact ⟨List.mem_cons_of_mem _ h1, h2⟩
    | some pr =>
      obtain ⟨l1, r1⟩ := pr
      rw [hm] at h
      simp only [] at h
      by_cases hb : wordB true r1
      · rw [if_pos hb] at h
        simp only [Option.some.injEq, Prod.mk.injEq] at h
        obtain ⟨hl, hr⟩ := h
        obtain ⟨h1, h2⟩ := matchLit_eq_some hm
        subst hl hr h1
        exact ⟨List.mem_cons_self _ _, h2⟩
      · rw [if_neg hb] at h
        obtain ⟨h1, h2⟩ := ih h
        exact ⟨List.mem_cons_of_mem _ h1, h2⟩

theorem matchWords_eq_some {ws : List (List Char)} {prev : Bool}
    {cs lex rest : List Char} (h : matchWords ws prev cs = some (lex, rest)) :
    lex ∈ ws ∧ cs = lex ++ rest := by
  unfold matchWords at h
  by_cases hb : wordB prev cs
  · rw [if_pos hb] at h; exact matchWordsAux_eq_some h
  · rw [if_neg hb] at h; exact absurd h (by simp)

theorem firstLit_eq_some {cs : List Char} :
    ∀ {ws : List (List Char)} {lex rest : List Char},
      firstLit cs ws = some (lex, rest) → lex ∈ ws ∧ cs = lex ++ rest := by
  intro ws
  induction ws with
  | nil => intro lex rest h; simp [firstLit] at h
  | cons w ws ih =>
    intro lex rest h
    simp only [firstLit] at h
    cases hm : matchLit w cs with
    | none =>
      rw [hm] at h
      obtain ⟨h1, h2⟩ := ih h
      exact ⟨List.mem_cons_of_mem _ h1, h2⟩
    | some pr =>
      rw [hm] at h
      obtain rfl : pr = (lex, rest) := by simpa using h
      obtain ⟨h1, h2⟩ := matchLit_eq_some hm
      subst h1
      exact ⟨List.mem_cons_self _ _, h2⟩

theorem matchNUMBER_eq_some {cs lex rest : List Char}
    (h : matchNUMBER cs = some (lex, rest)) :
    cs = lex ++ rest ∧ lex ≠ [] ∧
      ((∀ c ∈ lex, isDigitChar c) ∨
        ∃ a b, lex = a ++ '.' :: b ∧ a ≠ [] ∧ b ≠ [] ∧
          (∀ c ∈ a, isDigitChar c) ∧ (∀ c ∈ b, isDigitChar c)) := by
  unfold matchNUMBER at h
  simp only [] at h
  by_cases hds : (cs.takeWhile isDigitChar).isEmpty
  · rw [if_pos hds] at h; exact absurd h (by simp)
  · rw [if_neg hds] at h
    have hsplit : cs.takeWhile isDigitChar ++ cs.dropWhile isDigitChar = cs :=
      List.takeWhile_append_dropWhile isDigitChar cs
    have hdig : ∀ c ∈ cs.takeWhile isDigitChar, isDigitChar c :=
      fun c hc => List.mem_takeWhile_imp hc
    have hne : cs.takeWhile isDigitChar ≠ [] := by
      intro hh; rw [hh] at hds; simp at hds
    cases hr1 : cs.dropWhile isDigitChar with
    | nil =>
      rw [hr1] at h
      obtain ⟨hl, hr⟩ : cs.takeWhile isDigitChar = lex ∧ [] = rest := by simpa using h
      subst hl
      rw [hr1] at hsplit
      exact ⟨by rw [← hr]; exact hsplit.symm, hne, Or.inl hdig⟩
    | cons c r2 =>
      rw [hr1] at h
      simp only [] at h
      rw [hr1] at hsplit
      by_cases hcdot : c = '.'
      · rw [if_pos hcdot] at h
        by_cases hfs : (r2.takeWhile isDigitChar).isEmpty
        · rw [if_pos hfs] at h
          obtain ⟨hl, hr⟩ : cs.takeWhile isDigitChar = lex ∧ c :: r2 = rest := by
            simpa using h
          subst hl
          exact ⟨by rw [← hr]; exact hsplit.symm, hne, Or.inl hdig⟩
        · rw [if_neg hfs] at h
          obtain ⟨hl, hr⟩ :
              cs.takeWhile isDigitChar ++ '.' :: r2.takeWhile isDigitChar = lex ∧
                r2.dropWhile isDigitChar = rest := by simpa using h
          have hfne : r2.takeWhile isDigitChar ≠ [] := by
            intro hh; rw [hh] at hfs; simp at hfs
          refine ⟨?_, by simp [← hl, hne], Or.inr ⟨cs.takeWhile isDigitChar,
            r2.takeWhile isDigitChar, hl.symm, hne, hfne, hdig,
            fun x hx => List.mem_takeWhile_imp hx⟩⟩
          rw [← hl, ← hr]
          have hr2s : r2.takeWhile isDigitChar ++ r2.dropWhile isDigitChar = r2 :=
            List.takeWhile_append_dropWhile isDigitChar r2
          conv_lhs => rw [← hsplit]
          rw [hcdot]
          simp [List.append_assoc, hr2s]
      · rw [if_neg hcdot] at h
        obtain ⟨hl, hr⟩ : cs.takeWhile isDigitChar = lex ∧ c :: r2 = rest := by
          simpa using h
        subst hl
        exact ⟨by rw [← hr]; exact hsplit.symm, hne, Or.inl hdig⟩

theorem matchIDENT_eq_some {cs lex rest : List Char}
    (h : matchIDENT cs = some (lex, rest)) :
    cs = lex ++ rest ∧ lex ≠ [] ∧
      ∃ c t, lex = c :: t ∧ (c.isAlpha || c == '_') = true ∧
        ∀ x ∈ t, isWordChar x := by
  cases cs with
  | nil => simp [matchIDENT] at h
  | cons c cs' =>
    rw [matchIDENT.eq_def] at h
    simp only [] at h
    by_cases hc : (c.isAlpha || c == '_') = true
    · rw [if_pos hc] at h
      obtain ⟨hl, hr⟩ : c :: cs'.takeWhile isWordChar = lex ∧
          cs'.dropWhile isWordChar = rest := by simpa using h
      refine ⟨?_, by simp [← hl], c, cs'.takeWhile isWordChar, hl.symm, hc,
        fun x hx => List.mem_takeWhile_imp hx⟩
      rw [← hl, ← hr]
      simp [List.takeWhile_append_dropWhile]
    · rw [if_neg hc] at h; exact absurd h (by simp)

theorem matchSKIP_eq_some {cs lex rest : List Char}
    (h : matchSKIP cs = some (lex, rest)) :
    cs = lex ++ rest ∧ lex ≠ [] ∧ ∀ c ∈ lex, isSpaceTab c := by
  unfold matchSKIP at h
  simp only [] at h
  by_cases hl : (cs.takeWhile isSpaceTab).isEmpty
  · rw [if_pos hl] at h; exact absurd h (by simp)
  · rw [if_neg hl] at h
    obtain ⟨h1, h2⟩ : cs.takeWhile isSpaceTab = lex ∧ cs.dropWhile isSpaceTab = rest := by
      simpa using h
    subst h1
    refine ⟨by rw [← h2]; simp [List.takeWhile_append_dropWhile], ?_,
      fun c hc => List.mem_takeWhile_imp hc⟩
    intro hh; rw [hh] at hl; simp at hl

theorem matchMISMATCH_eq_some {cs lex rest : List Char}
    (h : matchMISMATCH cs = some (lex, rest)) :
    ∃ c, c ≠ '\n' ∧ lex = [c] ∧ cs = c :: rest := by
  cases cs with
  | nil => simp [matchMISMATCH] at h
  | cons c cs' =>
    rw [matchMISMATCH.eq_def] at h
    simp only [] at h
    by_cases hc : c = '\n'
    · rw [if_pos hc] at h; exact absurd h (by simp)
    · rw [if_neg hc] at h
      obtain ⟨h1, h2⟩ : [c] = lex ∧ cs' = rest := by simpa using h
      exact ⟨c, hc, h1.symm, by rw [h2]⟩

/-! ## Facts about `ruleMatch`, `firstMatch` and the scan -/

theorem ruleMatch_eq_some {k : Tok} {prev : Bool} {cs lex rest : List Char}
    (h : ruleMatch k prev cs = some (lex, rest)) :
    lex ≠ [] ∧ cs = lex ++ rest := by
  cases k
  case STRING =>
    obtain ⟨h1, h2, _, _⟩ := matchSTRING_eq_some h
    exact ⟨h2, h1⟩
  case KEYWORD =>
    obtain ⟨h1, h2⟩ := matchWords_eq_some h
    refine ⟨?_, h2⟩
    have : ∀ w ∈ KEYWORDS, w ≠ ([] : List Char) := by decide
    exact this lex h1
  case BUILTIN =>
    obtain ⟨h1, h2⟩ := matchWords_eq_some h
    refine ⟨?_, h2⟩
    have : ∀ w ∈ BUILTINS, w ≠ ([] : List Char) := by decide
    exact this lex h1
  case NUMBER =>
    obtain ⟨h1, h2, _⟩ := matchNUMBER_eq_some h
    exact ⟨h2, h1⟩
  case IDENT =>
    obtain ⟨h1, h2, _⟩ := matchIDENT_eq_some h
    exact ⟨h2, h1⟩
  case AUGASSIGN =>
    obtain ⟨h1, h2⟩ := firstLit_eq_some h
    refine ⟨?_, h2⟩
    have : ∀ w ∈ [['+', '='], ['-', '='], ['*', '='], ['/', '=']],
        w ≠ ([] : List Char) := by decide
    exact this lex h1
  case SKIP =>
    obtain ⟨h1, h2, _⟩ := matchSKIP_eq_some h
    exact ⟨h2, h1⟩
  case MISMATCH =>
    obtain ⟨c, _, h2, h3⟩ := matchMISMATCH_eq_some h
    exact ⟨by simp [h2], by simp [h2, h3]⟩
  all_goals
    obtain ⟨h1, h2⟩ := matchLit_eq_some h
  all_goals subst h1
  all_goals exact ⟨by simp, h2⟩

theorem ruleMatch_newline {k : Tok} {prev : Bool} {cs lex rest : List Char}
    (h : ruleMatch k prev cs = some (lex, rest)) :
    (k = Tok.NEWLINE → lex = ['\n']) ∧ (k ≠ Tok.NEWLINE → '\n' ∉ lex) := by
  cases k
  case STRING =>
    obtain ⟨_, _, h3, _⟩ := matchSTRING_eq_some h
    exact ⟨by simp, fun _ => h3⟩
  case KEYWORD =>
    obtain ⟨h1, _⟩ := matchWords_eq_some h
    refine ⟨by simp, fun _ => ?_⟩
    have : ∀ w ∈ KEYWORDS, ('\n' : Char) ∉ w := by decide
    exact this lex h1
  case BUILTIN =>
    obtain ⟨h1, _⟩ := matchWords_eq_some h
    refine ⟨by simp, fun _ => ?_⟩
    have : ∀ w ∈ BUILTINS, ('\n' : Char) ∉ w := by decide
    exact this lex h1
  case NUMBER =>
    obtain ⟨_, _, h3⟩ := matchNUMBER_eq_some h
    refine ⟨by simp, fun _ hmem => ?_⟩
    rcases h3 with h3 | ⟨a, b, hab, _, _, ha, hb⟩
    · have := h3 _ hmem; simp [isDigitChar] at this
    · rw [hab] at hmem
      rcases List.mem_append.mp hmem with hm | hm
      · have := ha _ hm; simp [isDigitChar] at this
      · rcases List.mem_cons.mp hm with hm | hm
        · exact absurd hm (by decide)
        · have := hb _ hm; simp [isDigitChar] at this
  case IDENT =>
    obtain ⟨_, _, c, t, hct, hc, ht⟩ := matchIDENT_eq_some h
    refine ⟨by simp, fun _ hmem => ?_⟩
    rw [hct] at hmem
    rcases List.mem_cons.mp hmem with hm | hm
    · rw [← hm] at hc; simp at hc
    · have := ht _ hm; simp [isWordChar] at this
  case AUGASSIGN =>
    obtain ⟨h1, _⟩ := firstLit_eq_some h
    refine ⟨by simp, fun _ => ?_⟩
    have : ∀ w ∈ [['+', '='], ['-', '='], ['*', '='], ['/', '=']],
        ('\n' : Char) ∉ w := by decide
    exact this lex h1
  case SKIP =>
    obtain ⟨_, _, h3⟩ := matchSKIP_eq_some h
    refine ⟨by simp, fun _ hmem => ?_⟩
    have := h3 _ hmem; simp [isSpaceTab] at this
  case MISMATCH =>
    obtain ⟨c, hc, h2, _⟩ := matchMISMATCH_eq_some h
    refine ⟨by simp, fun _ hmem => ?_⟩
    rw [h2] at hmem
    exact hc (List.mem_singleton.mp hmem).symm
  case NEWLINE =>
    obtain ⟨h1, _⟩ := matchLit_eq_some h
    exact ⟨fun _ => h1, fun hk => absurd rfl hk⟩
  all_goals
    obtain ⟨h1, h2⟩ := matchLit_eq_some h
  all_goals subst h1
  all_goals exact ⟨by simp, fun _ => by decide⟩

theorem firstMatchAux_eq_some {prev : Bool} {cs : List Char} :
    ∀ {ks : List Tok} {k : Tok} {lex rest : List Char},
      firstMatchAux prev cs ks = some (k, lex, rest) →
      ∃ pre post, ks = pre ++ k :: post ∧
        (∀ k' ∈ pre, ruleMatch k' prev cs = none) ∧
        ruleMatch k prev cs = some (lex, rest) := by
  intro ks
  induction ks with
  | nil => intro k lex rest h; simp [firstMatchAux] at h
  | cons k0 ks ih =>
    intro k lex rest h
    simp only [firstMatchAux] at h
    cases hm : ruleMatch k0 prev cs with
    | some pr =>
      obtain ⟨l1, r1⟩ := pr
      rw [hm] at h
      simp only [Option.some.injEq, Prod.mk.injEq] at h
      obtain ⟨hk, hl, hr⟩ := h
      subst hk hl hr
      exact ⟨[], ks, rfl, by simp, hm⟩
    | none =>
      rw [hm] at h
      obtain ⟨pre, post, h1, h2, h3⟩ := ih h
      refine ⟨k0 :: pre, post, by rw [h1]; simp, ?_, h3⟩
      intro k' hk'
      rcases List.mem_cons.mp hk' with hk' | hk'
      · rw [hk']; exact hm
      · exact h2 k' hk'

theorem firstMatchAux_eq_none {prev : Bool} {cs : List Char} :
    ∀ {ks : List Tok}, firstMatchAux prev cs ks = none →
      ∀ k ∈ ks, ruleMatch k prev cs = none := by
  intro ks
  induction ks with
  | nil => intro _ k hk; simp at hk
  | cons k0 ks ih =>
    intro h k hk
    simp only [firstMatchAux] at h
    cases hm : ruleMatch k0 prev cs with
    | some pr => rw [hm] at h; simp at h
    | none =>
      rw [hm] at h
      rcases List.mem_cons.mp hk with hk | hk
      · rw [hk]; exact hm
      · exact ih h k hk

theorem firstMatch_eq_some {prev : Bool} {cs : List Char} {k : Tok}
    {lex rest : List Char} (h : firstMatch prev cs = some (k, lex, rest)) :
    ∃ pre post, TOKEN_SPEC = pre ++ k :: post ∧
      (∀ k' ∈ pre, ruleMatch k' prev cs = none) ∧
      ruleMatch k prev cs = some (lex, rest) :=
  firstMatchAux_eq_some h

/-- Totality of the rule table: at a nonempty position some rule always
matches (NEWLINE catches the line feed, MISMATCH catches everything else). -/
theorem firstMatch_isSome (prev : Bool) (c : Char) (cs' : List Char) :
    (firstMatch prev (c :: cs')).isSome := by
  cases hfm : firstMatch prev (c :: cs') with
  | some pr => simp
  | none =>
    exfalso
    have hall := firstMatchAux_eq_none hfm
    have h1 := hall Tok.NEWLINE (by decide)
    have h2 := hall Tok.MISMATCH (by decide)
    simp only [ruleMatch] at h1 h2
    by_cases hc : c = '\n'
    · subst hc
      have := matchLit_self ['\n'] cs'
      simp only [List.cons_append, List.nil_append] at this
      rw [this] at h1
      exact absurd h1 (by simp)
    · rw [matchMISMATCH.eq_def] at h2
      simp only [] at h2
      rw [if_neg hc] at h2
      exact absurd h2 (by simp)

theorem firstMatch_spec {prev : Bool} {cs lex rest : List Char} {k : Tok}
    (h : firstMatch prev cs = some (k, lex, rest)) :
    lex ≠ [] ∧ cs = lex ++ rest := by
  obtain ⟨_, _, _, _, h3⟩ := firstMatch_eq_some h
  exact ruleMatch_eq_some h3

/-- The match spans of a scan tile the input exactly: the concatenation of
the lexemes of the chunks is the input itself. -/
theorem lexChunksF_flatten :
    ∀ fuel : Nat, ∀ prev : Bool, ∀ cs : List Char, cs.length ≤ fuel →
      ((lexChunksF fuel prev cs).map Prod.snd).flatten = cs := by
  intro fuel
  induction fuel with
  | zero =>
    intro prev cs hlen
    rw [List.length_eq_zero.mp (Nat.le_zero.mp hlen)]
    simp [lexChunksF]
  | succ n ih =>
    intro prev cs hlen
    cases cs with
    | nil => simp [lexChunksF]
    | cons c cs' =>
      cases hfm : firstMatch prev (c :: cs') with
      | none =>
        have := firstMatch_isSome prev c cs'
        rw [hfm] at this
        simp at this
      | some klr =>
        obtain ⟨k, lex, rest⟩ := klr
        obtain ⟨hne, hcs⟩ := firstMatch_spec hfm
        have hrest : rest.length ≤ n := by
          have : (c :: cs').length = lex.length + rest.length := by
            rw [hcs, List.length_append]
          have hlex : 1 ≤ lex.length := by
            cases lex with
            | nil => exact absurd rfl hne
            | cons _ _ => simp
          simp only [List.length_cons] at hlen this
          omega
        simp only [lexChunksF, hfm]
        simp only [List.map_cons, List.flatten_cons]
        rw [ih (prevAfter prev lex) rest hrest]
        exact hcs.symm

/-- Every chunk of a scan arises from a successful `ruleMatch` of its kind,
at a position where all earlier rules of `TOKEN_SPEC` fail. -/
theorem lexChunksF_sound :
    ∀ fuel : Nat, ∀ prev : Bool, ∀ cs : List Char, ∀ p ∈ lexChunksF fuel prev cs,
      ∃ prev' suf rest, ruleMatch p.1 prev' suf = some (p.2, rest) ∧
        ∃ pre post, TOKEN_SPEC = pre ++ p.1 :: post ∧
          ∀ k' ∈ pre, ruleMatch k' prev' suf = none := by
  intro fuel
  induction fuel with
  | zero => intro prev cs p hp; simp [lexChunksF] at hp
  | succ n ih =>
    intro prev cs p hp
    cases cs with
    | nil => simp [lexChunksF] at hp
    | cons c cs' =>
      cases hfm : firstMatch prev (c :: cs') with
      | none =>
        have := firstMatch_isSome prev c cs'
        rw [hfm] at this
        simp at this
      | some klr =>
        obtain ⟨k, lex, rest⟩ := klr
        simp only [lexChunksF, hfm] at hp
        rcases List.mem_cons.mp hp with hp | hp
        · subst hp
          obtain ⟨pre, post, h1, h2, h3⟩ := firstMatch_eq_some hfm
          exact ⟨prev, c :: cs', rest, h3, pre, post, h1, h2⟩
        · exact ih (prevAfter prev lex) rest p hp

theorem lexChunksF_fuel_irrel :
    ∀ fuel other : Nat, ∀ prev : Bool, ∀ cs : List Char,
      cs.length ≤ fuel → cs.length ≤ other →
      lexChunksF fuel prev cs = lexChunksF other prev cs := by
  intro fuel
  induction fuel with
  | zero =>
    intro other prev cs hlen _
    rw [List.length_eq_zero.mp (Nat.le_zero.mp hlen)]
    cases other <;> rfl
  | succ n ih =>
    intro other prev cs hlen hlen2
    cases cs with
    | nil => cases other <;> rfl
    | cons c cs' =>
      cases other with
      | zero => simp at hlen2
      | succ m =>
        cases hfm : firstMatch prev (c :: cs') with
        | none =>
          have := firstMatch_isSome prev c cs'
          rw [hfm] at this
          simp at this
        | some klr =>
          obtain ⟨k, lex, rest⟩ := klr
          obtain ⟨hne, hcs⟩ := firstMatch_spec hfm
          have hlex : 1 ≤ lex.length := by
            cases lex with
            | nil => exact absurd rfl hne
            | cons _ _ => simp
          have hlenr : (c :: cs').length = lex.length + rest.length := by
            rw [hcs, List.length_append]
          have hr1 : rest.length ≤ n := by
            simp only [List.length_cons] at hlen hlenr; omega
          have hr2 : rest.length ≤ m := by
            simp only [List.length_cons] at hlen2 hlenr; omega
          simp only [lexChunksF, hfm]
          rw [ih m (prevAfter prev lex) rest hr1 hr2]

/-- Unfolding one scan step of `lexChunks` at a successful match. -/
theorem lexChunks_cons {prev : Bool} {c : Char} {cs' : List Char} {k : Tok}
    {lex rest : List Char} (hfm : firstMatch prev (c :: cs') = some (k, lex, rest)) :
    lexChunks prev (c :: cs') = (k, lex) :: lexChunks (prevAfter prev lex) rest := by
  obtain ⟨hne, hcs⟩ := firstMatch_spec hfm
  have hlex : 1 ≤ lex.length := by
    cases lex with
    | nil => exact absurd rfl hne
    | cons _ _ => simp
  have hlenr : (c :: cs').length = lex.length + rest.length := by
    rw [hcs, List.length_append]
  unfold lexChunks
  simp only [List.length_cons, lexChunksF, hfm]
  rw [lexChunksF_fuel_irrel cs'.length rest.length (prevAfter prev lex) rest
    (by simp only [List.length_cons] at hlenr; omega) le_rfl]

theorem lexChunks_flatten (text : List Char) :
    ((lexChunks false text).map Prod.snd).flatten = text :=
  lexChunksF_flatten text.length false text le_rfl

theorem lexChunks_sound {text : List Char} {p : Tok × List Char} {prev : Bool}
    (hp : p ∈ lexChunks prev text) :
    ∃ prev' suf rest, ruleMatch p.1 prev' suf = some (p.2, rest) ∧
      ∃ pre post, TOKEN_SPEC = pre ++ p.1 :: post ∧
        ∀ k' ∈ pre, ruleMatch k' prev' suf = none :=
  lexChunksF_sound text.length prev text p hp

/-! ## Facts about the token / error post-processing -/

theorem wordB_false_cons (c : Char) (cs : List Char) :
    wordB false (c :: cs) = isWordChar c := by
  simp [wordB]

theorem wordB_true_cons (c : Char) (cs : List Char) :
    wordB true (c :: cs) = !isWordChar c := by
  simp [wordB]

theorem mem_errorsOf {e : List Char} :
    ∀ {chunks : List (Tok × List Char)},
      e ∈ errorsOf chunks ↔
        ∃ k lex, (k, lex) ∈ chunks ∧ isErrKind k = true ∧ e = errMsg lex := by
  intro chunks
  induction chunks with
  | nil => simp [errorsOf]
  | cons p rest ih =>
    obtain ⟨k0, lex0⟩ := p
    by_cases hk : isErrKind k0
    · simp only [errorsOf, if_pos hk, List.mem_cons, ih]
      constructor
      · rintro (rfl | ⟨k, lex, h1, h2, h3⟩)
        · exact ⟨k0, lex0, Or.inl rfl, hk, rfl⟩
        · exact ⟨k, lex, Or.inr h1, h2, h3⟩
      · rintro ⟨k, lex, h1 | h1, h2, h3⟩
        · obtain ⟨rfl, rfl⟩ := Prod.mk.injEq .. ▸ h1
          exact Or.inl h3
        · exact Or.inr ⟨k, lex, h1, h2, h3⟩
    · simp only [errorsOf, if_neg hk, List.mem_cons, ih]
      constructor
      · rintro ⟨k, lex, h1, h2, h3⟩
        exact ⟨k, lex, Or.inr h1, h2, h3⟩
      · rintro ⟨k, lex, h1 | h1, h2, h3⟩
        · obtain ⟨rfl, rfl⟩ := Prod.mk.injEq .. ▸ h1
          exact absurd h2 hk
        · exact ⟨k, lex, h1, h2, h3⟩

theorem mem_tokensOf {k : Tok} {lex : List Char} :
    ∀ {chunks : List (Tok × List Char)}, (k, lex) ∈ tokensOf chunks →
      (k = Tok.NEWLINE ∧ lex = ['\\', 'n'] ∧ ∃ l₀, (Tok.NEWLINE, l₀) ∈ chunks) ∨
      ((k, lex) ∈ chunks ∧ k ≠ Tok.SKIP ∧ k ≠ Tok.NEWLINE ∧
        k ≠ Tok.BADSEQ ∧ k ≠ Tok.MISMATCH) := by
  intro chunks
  induction chunks with
  | nil => intro h; simp [tokensOf] at h
  | cons p rest ih =>
    obtain ⟨k0, lex0⟩ := p
    intro h
    have hstep : ∀ hmem : (k, lex) ∈ tokensOf rest,
        (k = Tok.NEWLINE ∧ lex = ['\\', 'n'] ∧
          ∃ l₀, (Tok.NEWLINE, l₀) ∈ (k0, lex0) :: rest) ∨
        ((k, lex) ∈ (k0, lex0) :: rest ∧ k ≠ Tok.SKIP ∧ k ≠ Tok.NEWLINE ∧
          k ≠ Tok.BADSEQ ∧ k ≠ Tok.MISMATCH) := by
      intro hmem
      rcases ih hmem with ⟨h1, h2, l₀, h3⟩ | ⟨h1, h2⟩
      · exact Or.inl ⟨h1, h2, l₀, List.mem_cons_of_mem _ h3⟩
      · exact Or.inr ⟨List.mem_cons_of_mem _ h1, h2⟩
    cases k0
    case SKIP => exact hstep (by simpa [tokensOf] using h)
    case BADSEQ => exact hstep (by simpa [tokensOf] using h)
    case MISMATCH => exact hstep (by simpa [tokensOf] using h)
    case NEWLINE =>
      simp only [tokensOf, List.mem_cons] at h
      rcases h with h | h
      · obtain ⟨rfl, rfl⟩ := Prod.mk.injEq .. ▸ h
        exact Or.inl ⟨rfl, rfl, lex0, List.mem_cons_self _ _⟩
      · exact hstep h
    all_goals
      simp only [tokensOf, List.mem_cons] at h
    all_goals
      rcases h with h | h
      · obtain ⟨rfl, rfl⟩ := Prod.mk.injEq .. ▸ h
        exact Or.inr ⟨List.mem_cons_self _ _, by simp, by simp, by simp, by simp⟩
      · exact hstep h

theorem mem_tokensOf_of_mem {k : Tok} {lex : List Char} :
    ∀ {chunks : List (Tok × List Char)}, (k, lex) ∈ chunks →
      k ≠ Tok.SKIP → k ≠ Tok.NEWLINE → k ≠ Tok.BADSEQ → k ≠ Tok.MISMATCH →
      (k, lex) ∈ tokensOf chunks := by
  intro chunks
  induction chunks with
  | nil => intro h; simp at h
  | cons p rest ih =>
    obtain ⟨k0, lex0⟩ := p
    intro h h1 h2 h3 h4
    rcases List.mem_cons.mp h with h | h
    · obtain ⟨rfl, rfl⟩ := Prod.mk.injEq .. ▸ h
      cases k <;> simp [tokensOf] <;> simp at h1 h2 h3 h4
    · have hmem := ih h h1 h2 h3 h4
      cases k0 <;> simp [tokensOf, hmem]

theorem map_sum_eq_countP {α : Type} (pred : α → Bool) (f : α → Nat) :
    ∀ L : List α, (∀ p ∈ L, f p = if pred p then 1 else 0) →
      (L.map f).sum = L.countP pred := by
  intro L
  induction L with
  | nil => intro _; rfl
  | cons a L ih =>
    intro h
    simp only [List.map_cons, List.sum_cons, List.countP_cons]
    rw [h a (List.mem_cons_self _ _), ih (fun p hp => h p (List.mem_cons_of_mem _ hp))]
    by_cases hp : pred a <;> simp [hp, Nat.add_comm]

/-- The lexeme of every NEWLINE chunk is the single line feed, and no other
chunk's lexeme contains a line feed. -/
theorem lexChunks_newline_lexeme {text : List Char} {p : Tok × List Char}
    {prev : Bool} (hp : p ∈ lexChunks prev text) :
    (p.1 = Tok.NEWLINE → p.2 = ['\n']) ∧ (p.1 ≠ Tok.NEWLINE → '\n' ∉ p.2) := by
  obtain ⟨prev', suf, rest, hrm, _⟩ := lexChunks_sound hp
  exact ruleMatch_newline hrm

theorem lexChunks_count_newline (text : List Char) :
    (lexChunks false text).countP (fun p => p.1 == Tok.NEWLINE) = text.count '\n' := by
  conv_rhs => rw [← lexChunks_flatten text]
  rw [List.count_flatten, List.map_map]
  symm
  refine map_sum_eq_countP _ _ _ ?_
  intro p hp
  obtain ⟨h1, h2⟩ := lexChunks_newline_lexeme hp
  by_cases hk : p.1 = Tok.NEWLINE
  · simp only [Function.comp_apply, h1 hk, hk]
    rfl
  · have : p.2.count '\n' = 0 := List.count_eq_zero.mpr (h2 hk)
    simp only [Function.comp_apply, this]
    have : (p.1 == Tok.NEWLINE) = false := by
      simp only [beq_eq_false_iff_ne, ne_eq]; exact hk
    rw [this]
    rfl

theorem tokensOf_countP_newline :
    ∀ chunks : List (Tok × List Char),
      (tokensOf chunks).countP (fun p => p.1 == Tok.NEWLINE) =
        chunks.countP (fun p => p.1 == Tok.NEWLINE) := by
  intro chunks
  induction chunks with
  | nil => rfl
  | cons p rest ih =>
    obtain ⟨k, lex⟩ := p
    cases k <;> simp [tokensOf, List.countP_cons, ih]

/-- Splitting `takeWhile`/`dropWhile` around a boundary where the predicate
flips. -/
theorem takeWhile_dropWhile_append {p : Char → Bool} :
    ∀ ws text : List Char, (∀ c ∈ ws, p c) →
      (∀ c, text.head? = some c → ¬ p c) →
      (ws ++ text).takeWhile p = ws ∧ (ws ++ text).dropWhile p = text := by
  intro ws
  induction ws with
  | nil =>
    intro text _ h3
    cases text with
    | nil => simp
    | cons t ts =>
      have := h3 t rfl
      simp only [List.nil_append]
      exact ⟨List.takeWhile_cons_of_neg (by simpa using this),
        List.dropWhile_cons_of_neg (by simpa using this)⟩
  | cons w ws ih =>
    intro text h2 h3
    have hw : p w := h2 w (List.mem_cons_self _ _)
    obtain ⟨ht, hd⟩ := ih text (fun c hc => h2 c (List.mem_cons_of_mem _ hc)) h3
    simp only [List.cons_append]
    rw [List.takeWhile_cons_of_pos hw, List.dropWhile_cons_of_pos hw, ht, hd]
    exact ⟨rfl, rfl⟩

theorem flatten_sublist_flatten {α : Type} :
    ∀ {L1 L2 : List (List α)}, List.Sublist L1 L2 →
      List.Sublist L1.flatten L2.flatten := by
  intro L1 L2 h
  induction h with
  | slnil => simp
  | cons a _ ih =>
    simp only [List.flatten_cons]
    exact ih.trans (List.sublist_append_right _ _)
  | cons₂ a _ ih =>
    simp only [List.flatten_cons]
    exact List.Sublist.append (List.Sublist.refl a) ih

theorem isWordChar_of_spacetab {c : Char} (h : isSpaceTab c = true) :
    isWordChar c = false := by
  have hc : c = ' ' ∨ c = '\t' := by simpa [isSpaceTab] using h
  rcases hc with rfl | rfl <;> decide

theorem prevAfter_spacetab {l : List Char} (h : ∀ x ∈ l, isSpaceTab x)
    (hne : l ≠ []) (b : Bool) : prevAfter b l = false := by
  unfold prevAfter
  cases hgl : l.getLast? with
  | none =>
    have := List.getLast?_isSome.mpr hne
    rw [hgl] at this
    simp at this
  | some c =>
    have hc : c ∈ l := List.mem_of_mem_getLast? (by rw [hgl]; rfl)
    simp [isWordChar_of_spacetab (h c hc)]

theorem filter_flatten_sublist {pred : Tok × List Char → Bool}
    {nw : Char → Bool} :
    ∀ chunks : List (Tok × List Char),
      (∀ p ∈ chunks, pred p = false → p.2.filter nw = []) →
      List.Sublist ((chunks.map (fun p => p.2.filter nw)).flatten)
        (((chunks.filter pred).map Prod.snd).flatten) := by
  intro chunks
  induction chunks with
  | nil => intro _; simp
  | cons p rest ih =>
    intro h
    have ih' := ih fun q hq => h q (List.mem_cons_of_mem _ hq)
    by_cases hp : pred p
    · rw [List.map_cons, List.flatten_cons, List.filter_cons_of_pos hp,
        List.map_cons, List.flatten_cons]
      exact List.Sublist.append (List.filter_sublist _) ih'
    · have hnil := h p (List.mem_cons_self _ _) (by simpa using hp)
      rw [List.map_cons, List.flatten_cons, hnil, List.nil_append,
        List.filter_cons_of_neg hp]
      exact ih'

/-! ## The claims -/

/-- C1: at every unconsumed position, `tokenize` selects the first rule of
`TOKEN_SPEC` (in the fixed order STRING, BADSEQ, KEYWORD, ..., MISMATCH)
whose pattern matches there — rule order, not match length, breaks ties;
in particular `tokenize "inventory -= 1"` contains exactly one AUGASSIGN
token, with lexeme `-=`, and no MINUS or ASSIGN token. -/
theorem tokenize_first_match_priority :
    (∀ (prev : Bool) (cs : List Char) (k : Tok) (lex rest : List Char),
        firstMatch prev cs = some (k, lex, rest) →
        ∃ pre post, TOKEN_SPEC = pre ++ k :: post ∧
          (∀ k' ∈ pre, ruleMatch k' prev cs = none) ∧
          ruleMatch k prev cs = some (lex, rest)) ∧
    tokenize "inventory -= 1".data =
      ([(Tok.IDENT, "inventory".data), (Tok.AUGASSIGN, "-=".data),
        (Tok.NUMBER, "1".data)], []) ∧
    (tokenize "inventory -= 1".data).1.countP
      (fun p => p.1 == Tok.AUGASSIGN) = 1 ∧
    (tokenize "inventory -= 1".data).1.countP
      (fun p => p.1 == Tok.MINUS) = 0 ∧
    (tokenize "inventory -= 1".data).1.countP
      (fun p => p.1 == Tok.ASSIGN) = 0 ∧
    ∀ p ∈ (tokenize "inventory -= 1".data).1,
      p.1 = Tok.AUGASSIGN → p.2 = "-=".data :=
  ⟨fun _ _ _ _ _ h => firstMatch_eq_some h, by decide, by decide, by decide,
    by decide, by decide⟩

theorem tokenize_first_match_priority_witness :
    ∃ pre post, TOKEN_SPEC = pre ++ Tok.PLUS :: post ∧
      (∀ k' ∈ pre, ruleMatch k' false ['+'] = none) ∧
      ruleMatch Tok.PLUS false ['+'] = some (['+'], []) :=
  tokenize_first_match_priority.1 false ['+'] Tok.PLUS ['+'] [] (by decide)

/-- C2: on every input the scan is total: the lexemes of the successive
matches concatenate back to the whole input (every position is consumed by
exactly one match, never skipped, never consumed twice), every match is
nonempty, and at every nonempty position some rule matches (the
single-character fallback guarantees this), so `tokenize` always returns a
(tokens, errors) pair. -/
theorem tokenize_total_exact_cover :
    (∀ text : List Char, ((lexChunks false text).map Prod.snd).flatten = text) ∧
    (∀ text : List Char,
        (lexChunks false text).all (fun p => !p.2.isEmpty) = true) ∧
    (∀ (prev : Bool) (c : Char) (cs' : List Char),
        (firstMatch prev (c :: cs')).isSome = true) := by
  refine ⟨lexChunks_flatten, ?_, firstMatch_isSome⟩
  intro text
  rw [List.all_eq_true]
  intro p hp
  obtain ⟨prev', suf, rest, hrm, _⟩ := lexChunks_sound hp
  obtain ⟨hne, _⟩ := ruleMatch_eq_some hrm
  simpa using hne

/-- C3: a doubled closing parenthesis is always consumed as one BADSEQ
error match (message exactly `Error, )) is not recognized as a token`),
while a single closing parenthesis not followed by another is an RPAREN
token; a third consecutive `)` is an ordinary RPAREN.  In particular
`tokenize "inventory = inventory - 1))"` yields exactly that one error. -/
theorem tokenize_double_rparen_error :
    (∀ (prev : Bool) (cs : List Char),
        firstMatch prev (')' :: ')' :: cs) = some (Tok.BADSEQ, [')', ')'], cs)) ∧
    (∀ (prev : Bool) (d : Char) (ds : List Char), d ≠ ')' →
        firstMatch prev (')' :: d :: ds) = some (Tok.RPAREN, [')'], d :: ds)) ∧
    (∀ prev : Bool, firstMatch prev [')'] = some (Tok.RPAREN, [')'], [])) ∧
    errMsg [')', ')'] = "Error, )) is not recognized as a token".data ∧
    tokenize ")".data = ([(Tok.RPAREN, [')'])], []) ∧
    tokenize ")))".data = ([(Tok.RPAREN, [')'])], [errMsg [')', ')']]) ∧
    tokenize "inventory = inventory - 1))".data =
      ([(Tok.IDENT, "inventory".data), (Tok.ASSIGN, "=".data),
        (Tok.IDENT, "inventory".data), (Tok.MINUS, "-".data),
        (Tok.NUMBER, "1".data)], [errMsg [')', ')']]) := by
  refine ⟨?_, ?_, ?_, by decide, by decide, by decide, by decide⟩
  · intro prev cs; cases prev <;> rfl
  · intro prev d ds hd
    cases prev <;>
      simp [firstMatch, TOKEN_SPEC, firstMatchAux, ruleMatch, matchWords,
        matchWordsAux, matchLit, matchSTRING, matchQuoted, matchNUMBER,
        matchIDENT, matchAUGASSIGN, firstLit, matchSKIP, matchMISMATCH, wordB,
        isWordChar, isDigitChar, isSpaceTab, KEYWORDS, BUILTINS, hd]
  · intro prev; cases prev <;> rfl

theorem tokenize_double_rparen_error_witness :
    firstMatch false [')', 'x'] = some (Tok.RPAREN, [')'], ['x']) :=
  tokenize_double_rparen_error.2.1 false 'x' [] (by decide)

/-- C5: a whole word equal to a reserved word (at a word boundary on both
sides) is always matched as a KEYWORD token, never as IDENT; a word merely
containing a keyword, such as `ifx`, is an IDENT: `tokenize "if"` gives one
KEYWORD token and `tokenize "ifx"` one IDENT token. -/
theorem tokenize_keyword_vs_ident :
    (∀ k ∈ KEYWORDS, ∀ rest : List Char, wordB true rest = true →
        firstMatch false (k ++ rest) = some (Tok.KEYWORD, k, rest)) ∧
    tokenize "if".data = ([(Tok.KEYWORD, "if".data)], []) ∧
    tokenize "ifx".data = ([(Tok.IDENT, "ifx".data)], []) := by
  refine ⟨?_, by decide, by decide⟩
  intro k hk
  fin_cases hk <;> intro rest hb <;>
    simp [firstMatch, TOKEN_SPEC, firstMatchAux, ruleMatch, matchWords,
      matchWordsAux, matchLit, matchSTRING, matchQuoted, matchNUMBER,
      matchIDENT, matchAUGASSIGN, firstLit, matchSKIP, matchMISMATCH,
      isDigitChar, isSpaceTab, isWordChar, wordB_false_cons, KEYWORDS,
      BUILTINS, hb]

theorem tokenize_keyword_vs_ident_witness :
    firstMatch false ("if".data ++ [' ']) =
      some (Tok.KEYWORD, "if".data, [' ']) :=
  tokenize_keyword_vs_ident.1 "if".data (by decide) [' '] (by decide)

/-- C9: an opening quote with no closing quote never yields a STRING token:
every STRING lexeme ends in a closing quote, and on input `'abc` the lone
quote is reported through the single-character fallback as one error while
`abc` is tokenized as an IDENT. -/
theorem tokenize_unterminated_string :
    tokenize "'abc".data = ([(Tok.IDENT, "abc".data)], [errMsg ['\'']]) ∧
    errMsg ['\''] = "Error, ' is not recognized as a token".data ∧
    (∀ text : List Char, ∀ p ∈ lexChunks false text, p.1 = Tok.STRING →
        ∃ l₀ q, (q = '\'' ∨ q = '"') ∧ p.2 = l₀ ++ [q]) := by
  refine ⟨by decide, by decide, ?_⟩
  intro text p hp hk
  obtain ⟨prev', suf, rest, hrm, _⟩ := lexChunks_sound hp
  rw [hk] at hrm
  obtain ⟨_, _, _, q, l₀, hq, hl⟩ := matchSTRING_eq_some hrm
  exact ⟨l₀, q, hq, hl⟩

theorem tokenize_unterminated_string_witness :
    ∃ l₀ q, (q = '\'' ∨ q = '"') ∧ ("'a'".data : List Char) = l₀ ++ [q] :=
  tokenize_unterminated_string.2.2 "'a'".data (Tok.STRING, "'a'".data)
    (by decide) rfl

/-- C10: a decimal point joins a NUMBER lexeme only with digits on both
sides; a `.` at an unconsumed position is always consumed by the MISMATCH
fallback as a one-character error, and `tokenize "3."` gives NUMBER `3`
plus the error `Error, . is not recognized as a token`. -/
theorem tokenize_lone_dot_error :
    (∀ (prev : Bool) (cs : List Char),
        firstMatch prev ('.' :: cs) = some (Tok.MISMATCH, ['.'], cs)) ∧
    tokenize "3.".data = ([(Tok.NUMBER, ['3'])], [errMsg ['.']]) ∧
    errMsg ['.'] = "Error, . is not recognized as a token".data ∧
    (∀ text : List Char, ∀ p ∈ lexChunks false text, p.1 = Tok.NUMBER →
        (∀ c ∈ p.2, isDigitChar c) ∨
          ∃ a b, p.2 = a ++ '.' :: b ∧ a ≠ [] ∧ b ≠ [] ∧
            (∀ c ∈ a, isDigitChar c) ∧ (∀ c ∈ b, isDigitChar c)) := by
  refine ⟨fun prev cs => by cases prev <;> rfl, by decide, by decide, ?_⟩
  intro text p hp hk
  obtain ⟨prev', suf, rest, hrm, _⟩ := lexChunks_sound hp
  rw [hk] at hrm
  obtain ⟨_, _, h3⟩ := matchNUMBER_eq_some hrm
  exact h3

theorem tokenize_lone_dot_error_witness :
    (∀ c ∈ (['1', '2'] : List Char), isDigitChar c) ∨
      ∃ a b, (['1', '2'] : List Char) = a ++ '.' :: b ∧ a ≠ [] ∧ b ≠ [] ∧
        (∀ c ∈ a, isDigitChar c) ∧ (∀ c ∈ b, isDigitChar c) :=
  tokenize_lone_dot_error.2.2.2 "12".data (Tok.NUMBER, ['1', '2'])
    (by decide) rfl

/-- C4: exactly two situations append to the error list — a BADSEQ match
(the doubled closing parenthesis) and a MISMATCH match (a single character
no other rule accepts) — both with the identical message template
`Error, <lexeme> is not recognized as a token`; only the erroneous text is
consumed and scanning resumes after it.  In particular
`tokenize "price = $99"` yields exactly one error (for `$`) and still
recognizes `99` as a NUMBER token. -/
theorem tokenize_error_policy :
    (∀ text : List Char, ∀ e ∈ (tokenize text).2,
        ∃ lex, e = errMsg lex ∧
          ((Tok.BADSEQ, lex) ∈ lexChunks false text ∨
            (Tok.MISMATCH, lex) ∈ lexChunks false text)) ∧
    (∀ text : List Char, ∀ p ∈ lexChunks false text, isErrKind p.1 = true →
        errMsg p.2 ∈ (tokenize text).2) ∧
    (∀ text : List Char, ∀ p ∈ lexChunks false text,
        (p.1 = Tok.BADSEQ → p.2 = [')', ')']) ∧
        (p.1 = Tok.MISMATCH → ∃ c, c ≠ '\n' ∧ p.2 = [c])) ∧
    tokenize "price = $99".data =
      ([(Tok.IDENT, "price".data), (Tok.ASSIGN, "=".data),
        (Tok.NUMBER, "99".data)], [errMsg ['$']]) ∧
    errMsg ['$'] = "Error, $ is not recognized as a token".data ∧
    (Tok.NUMBER, "99".data) ∈ (tokenize "price = $99".data).1 := by
  refine ⟨?_, ?_, ?_, by decide, by decide, by decide⟩
  · intro text e he
    obtain ⟨k, lex, h1, h2, h3⟩ := mem_errorsOf.mp he
    refine ⟨lex, h3, ?_⟩
    have hk : k = Tok.BADSEQ ∨ k = Tok.MISMATCH := by
      cases k <;> simp [isErrKind] at h2 <;> simp
    rcases hk with rfl | rfl
    · exact Or.inl h1
    · exact Or.inr h1
  · intro text p hp hek
    exact mem_errorsOf.mpr ⟨p.1, p.2, by simpa using hp, hek, rfl⟩
  · intro text p hp
    obtain ⟨prev', suf, rest, hrm, _⟩ := lexChunks_sound hp
    constructor
    · intro hk
      rw [hk] at hrm
      exact (matchLit_eq_some hrm).1
    · intro hk
      rw [hk] at hrm
      obtain ⟨c, hc, h2, _⟩ := matchMISMATCH_eq_some hrm
      exact ⟨c, hc, h2⟩

theorem tokenize_error_policy_witness :
    errMsg ['$'] ∈ (tokenize "$".data).2 :=
  tokenize_error_policy.2.1 "$".data (Tok.MISMATCH, ['$']) (by decide)
    (by decide)

/-- C6: runs of horizontal whitespace contribute to neither the token list
nor the error list (prepending them to the input leaves `tokenize`
unchanged), each line feed of the input produces exactly one NEWLINE token,
and every NEWLINE token's lexeme is the normalized two-character escape
`\` `n` rather than the literal line feed. -/
theorem tokenize_whitespace_newline :
    (∀ ws text : List Char, ws ≠ [] → (∀ c ∈ ws, isSpaceTab c) →
        (∀ c, text.head? = some c → isSpaceTab c = false) →
        tokenize (ws ++ text) = tokenize text) ∧
    (∀ text : List Char,
        (tokenize text).1.countP (fun p => p.1 == Tok.NEWLINE) =
          text.count '\n') ∧
    (∀ text : List Char, ∀ p ∈ (tokenize text).1,
        p.1 = Tok.NEWLINE → p.2 = ['\\', 'n']) := by
  refine ⟨?_, ?_, ?_⟩
  · intro ws text h1 h2 h3
    cases ws with
    | nil => exact absurd rfl h1
    | cons c ws' =>
      have h3' : ∀ x, text.head? = some x → ¬ isSpaceTab x = true := by
        intro x hx
        rw [h3 x hx]
        simp
      have htd := takeWhile_dropWhile_append (p := isSpaceTab) (c :: ws') text h2 h3'
      simp only [List.cons_append] at htd
      have hsk : matchSKIP (c :: (ws' ++ text)) = some (c :: ws', text) := by
        unfold matchSKIP
        simp only []
        rw [htd.1, htd.2, if_neg (by simp)]
      have hst : isSpaceTab c = true := h2 c (List.mem_cons_self _ _)
      have hc2 : c = ' ' ∨ c = '\t' := by simpa [isSpaceTab] using hst
      have hfm : firstMatch false (c :: (ws' ++ text)) =
          some (Tok.SKIP, c :: ws', text) := by
        rcases hc2 with rfl | rfl <;>
          simp [firstMatch, TOKEN_SPEC, firstMatchAux, ruleMatch, matchWords,
            matchWordsAux, matchLit, matchSTRING, matchQuoted, matchNUMBER,
            matchIDENT, matchAUGASSIGN, firstLit, matchMISMATCH,
            wordB_false_cons, isWordChar, isDigitChar, KEYWORDS, BUILTINS, hsk]
      have hchunks : lexChunks false ((c :: ws') ++ text) =
          (Tok.SKIP, c :: ws') :: lexChunks false text := by
        rw [List.cons_append, lexChunks_cons hfm,
          prevAfter_spacetab h2 (by simp) false]
      unfold tokenize
      rw [hchunks]
      simp [tokensOf, errorsOf, isErrKind]
  · intro text
    show (tokensOf (lexChunks false text)).countP _ = _
    rw [tokensOf_countP_newline, lexChunks_count_newline]
  · intro text p hp hk
    obtain ⟨k, lex⟩ := p
    simp only at hk
    subst hk
    rcases mem_tokensOf hp with ⟨_, h2, _⟩ | ⟨_, _, h2, _, _⟩
    · exact h2
    · exact absurd rfl h2

theorem tokenize_whitespace_newline_witness :
    tokenize ([' ', '\t'] ++ "x".data) = tokenize "x".data :=
  tokenize_whitespace_newline.1 [' ', '\t'] "x".data (by decide) (by decide)
    (by intro c hc; simp at hc; subst hc; decide)

/-- C7: the lexemes of the non-discarded matches (everything except
whitespace SKIP runs and the NEWLINE matches, whose token lexeme is a
normalized escape), taken in input order, form a subsequence of the input
that contains every non-whitespace character of the input — no
non-whitespace character is dropped without appearing in a token or in an
error — and each such lexeme surfaces either as a token of `tokenize` or
inside an error message. -/
theorem tokenize_order_preservation :
    (∀ text : List Char,
        List.Sublist (text.filter (fun c => !isSpaceTab c && !(c == '\n')))
          ((((lexChunks false text).filter
              (fun p => !(p.1 == Tok.SKIP || p.1 == Tok.NEWLINE))).map
            Prod.snd).flatten)) ∧
    (∀ text : List Char,
        List.Sublist
          ((((lexChunks false text).filter
              (fun p => !(p.1 == Tok.SKIP || p.1 == Tok.NEWLINE))).map
            Prod.snd).flatten) text) ∧
    (∀ text : List Char, ∀ p ∈ lexChunks false text,
        (!(p.1 == Tok.SKIP || p.1 == Tok.NEWLINE)) = true →
        (p ∈ (tokenize text).1 ∧ isErrKind p.1 = false) ∨
          (errMsg p.2 ∈ (tokenize text).2 ∧ isErrKind p.1 = true)) := by
  refine ⟨?_, ?_, ?_⟩
  · intro text
    have heq : text.filter (fun c => !isSpaceTab c && !(c == '\n')) =
        ((lexChunks false text).map
          (fun p => p.2.filter (fun c => !isSpaceTab c && !(c == '\n')))).flatten := by
      conv_lhs => rw [← lexChunks_flatten text]
      rw [List.filter_flatten, List.map_map]
      rfl
    rw [heq]
    refine filter_flatten_sublist _ ?_
    intro p hp hpred
    have hk : p.1 = Tok.SKIP ∨ p.1 = Tok.NEWLINE := by
      revert hpred
      obtain ⟨k, lex⟩ := p
      cases k <;> simp
    rcases hk with hk | hk
    · obtain ⟨prev', suf, rest, hrm, _⟩ := lexChunks_sound hp
      rw [hk] at hrm
      obtain ⟨_, _, h3⟩ := matchSKIP_eq_some hrm
      rw [List.filter_eq_nil_iff]
      intro c hc
      simp [h3 c hc]
    · have hlex := (lexChunks_newline_lexeme hp).1 hk
      rw [hlex]
      decide
  · intro text
    have h1 := List.filter_sublist (p := fun p : Tok × List Char =>
      !(p.1 == Tok.SKIP || p.1 == Tok.NEWLINE)) (lexChunks false text)
    have h2 := flatten_sublist_flatten (h1.map Prod.snd)
    rw [lexChunks_flatten] at h2
    exact h2
  · intro text p hp hpred
    obtain ⟨k, lex⟩ := p
    have hks : k ≠ Tok.SKIP ∧ k ≠ Tok.NEWLINE := by
      constructor <;> rintro rfl <;> simp at hpred
    by_cases hek : isErrKind k = true
    · exact Or.inr ⟨mem_errorsOf.mpr ⟨k, lex, hp, hek, rfl⟩, hek⟩
    · have hkb : k ≠ Tok.BADSEQ ∧ k ≠ Tok.MISMATCH := by
        constructor <;> rintro rfl <;> simp [isErrKind] at hek
      exact Or.inl ⟨mem_tokensOf_of_mem hp hks.1 hks.2 hkb.1 hkb.2,
        by simpa using hek⟩

theorem tokenize_order_preservation_witness :
    ((Tok.IDENT, ['x']) ∈ (tokenize "x".data).1 ∧
      isErrKind Tok.IDENT = false) ∨
    (errMsg ['x'] ∈ (tokenize "x".data).2 ∧ isErrKind Tok.IDENT = true) :=
  tokenize_order_preservation.2.2 "x".data (Tok.IDENT, ['x']) (by decide)
    (by decide)

/-- C8: a STRING lexeme is quoted text, optionally prefixed by `f` or `F`,
never spanning a line break (no STRING token lexeme contains a line feed),
and an escaped quote inside the quotes does not terminate it: the whole of
`"a\"b"` is one STRING lexeme, and `f'hi'` is one STRING lexeme including
its prefix. -/
theorem tokenize_string_literal :
    (∀ text : List Char, ∀ p ∈ (tokenize text).1,
        p.1 = Tok.STRING → '\n' ∉ p.2) ∧
    tokenize ['"', 'a', '\\', '"', 'b', '"'] =
      ([(Tok.STRING, ['"', 'a', '\\', '"', 'b', '"'])], []) ∧
    tokenize ['f', '\'', 'h', 'i', '\''] =
      ([(Tok.STRING, ['f', '\'', 'h', 'i', '\''])], []) := by
  refine ⟨?_, by decide, by decide⟩
  intro text p hp hk
  obtain ⟨k, lex⟩ := p
  simp only at hk
  subst hk
  rcases mem_tokensOf hp with ⟨h1, _, _⟩ | ⟨h1, _⟩
  · exact absurd h1 (by decide)
  · obtain ⟨prev', suf, rest, hrm, _⟩ := lexChunks_sound h1
    obtain ⟨_, _, h3, _⟩ := matchSTRING_eq_some hrm
    exact h3

theorem tokenize_string_literal_witness :
    '\n' ∉ (['\'', '\''] : List Char) :=
  tokenize_string_literal.1 "''".data (Tok.STRING, ['\'', '\'']) (by decide)
    rfl

end LexicalParser
